import Mathlib

/-!
# Verification of the ROAMS numerical combination engine

A shallow embedding, over `ℚ`, of the core numeric routines of the ROAMS
model (LBNL-ETA/ROAMS):

* `np_interp` / `np_quantile`: the NumPy primitives the code relies on
  (linear interpolation and the linear-interpolation quantile method).
* `PoD_bin`, `PoD_linear`: the two reference detection curves of
  `roams/aerial/partial_detection.py` (float literals such as
  `0.24242424242424243` are embedded as the exact rationals `8/33` etc.
  that those doubles approximate).
* `get_partial_detection_samples`: the validating partial-detection
  resampler of `roams/aerial/partial_detection.py`, and
  `partial_detection_emiss`, the extra-mass matrix computed inline in
  `ROAMSModel.make_aerial_samples` (`roams/model.py`).
* `find_transition_point` (`roams/transition_point.py`).
* `combine_prod_samples` (`roams/model.py`).
* `stratify_sample` (`roams/simulated/stratify.py`).
* `get_aerial_survey_sample` (`roams/model.py`).

Matrices are represented column-wise: a `List (List ℚ)` is the list of
Monte-Carlo columns (the Python code addresses everything as `M[:, n]`),
except for the aerial sampler whose natural unit is a row per source.
Stochastic draws (`np.random.choice`, `pandas.sample`) are modelled by an
explicit index-valued draw function threaded through the definitions; the
drawn index is taken modulo the size of the population being sampled, so a
draw is always a member of that population, as with the library calls.
Python exceptions are modelled by `Except String`, with one fixed message
per distinct `raise` site.
-/

/-- Whether a modelled Python call returned normally (no exception). -/
def exceptOk {α : Type} (e : Except String α) : Bool :=
  match e with
  | .ok _ => true
  | .error _ => false

theorem exceptOk_iff {α : Type} (e : Except String α) :
    exceptOk e = true ↔ ∃ v, e = .ok v := by
  cases e <;> simp [exceptOk]

/-! ## NumPy primitives -/

/-- `np.interp x xp fp` for sorted `xp`: constant extrapolation outside
`[xp.head, xp.last]`, linear interpolation inside, and on an exact hit the
value paired with the last matching abscissa (NumPy's binary search finds
the largest `j` with `xp[j] ≤ x`).  NumPy raises on empty `xp`; that case
is unreachable in this development and returns the default `fp.headD 0`. -/
def np_interp (x : ℚ) (xp fp : List ℚ) : ℚ :=
  let c := xp.countP (fun t => decide (t ≤ x))
  if c = 0 then fp.headD 0
  else if c = xp.length then fp.getD (xp.length - 1) 0
  else
    let j := c - 1
    if xp.getD j 0 = x then fp.getD j 0
    else
      fp.getD j 0 +
        (fp.getD (j+1) 0 - fp.getD j 0) * (x - xp.getD j 0)
          / (xp.getD (j+1) 0 - xp.getD j 0)

/-- Ascending sort of a list of rationals.  NumPy's `sort` is an unstable
quicksort; for values this only determines the output up to the order of
equal elements, which is invisible in `ℚ`, so any sorting algorithm is a
faithful model.  Insertion sort is chosen because it evaluates inside the
kernel. -/
def sortAsc (l : List ℚ) : List ℚ :=
  l.insertionSort (fun a b => a ≤ b)

/-- `np.quantile data q` with the default linear (method="linear")
interpolation: position `q * (n - 1)` into the ascending sort of `data`. -/
def np_quantile (data : List ℚ) (q : ℚ) : ℚ :=
  let s := sortAsc data
  let n := s.length
  if n = 0 then 0
  else
    let pos := q * ((n : ℚ) - 1)
    let i := (Int.floor pos).toNat
    if i + 1 < n then s.getD i 0 + (pos - (i : ℚ)) * (s.getD (i+1) 0 - s.getD i 0)
    else s.getD (n - 1) 0

/-! ## Detection curves (`roams/aerial/partial_detection.py`) -/

/-- `PoD_bin`: the piecewise-constant probability-of-detection curve.
The source assigns, over an all-ones array, `1/5` on `(0,6)`, then the
empirical float constants on `[6,8)`, `[8,10)`, `[10,12)`, `[12,14)`
(`0.24242424242424243 = 8/33`, `0.35294117647058826 = 6/17`,
`0.696969696969697 = 23/33`, `0.9090909090909091 = 10/11`); everything
else, including `0`, keeps the initial value `1`. -/
def PoD_bin (w : ℚ) : ℚ :=
  if 0 < w ∧ w < 6 then 1/5
  else if 6 ≤ w ∧ w < 8 then 8/33
  else if 8 ≤ w ∧ w < 10 then 6/17
  else if 10 ≤ w ∧ w < 12 then 23/33
  else if 12 ≤ w ∧ w < 14 then 10/11
  else 1

/-- `PoD_linear`: `np.interp` against the breakpoints
`xs = [4,6,8,10,12,14,16]`, `ys = [.2,.2,8/33,12/34,23/33,20/22,1.]`
(the float literal `.2` is the double for `1/5`), then every entry with
wind-normalized value `< 4` is overwritten with `1`.  Values above `16`
get the right fill `1`. -/
def PoD_linear (w : ℚ) : ℚ :=
  if w < 4 then 1
  else np_interp w [4, 6, 8, 10, 12, 14, 16] [1/5, 1/5, 8/33, 12/34, 23/33, 20/22, 1]

/-- Elementwise application of a detection curve to a matrix, as the
NumPy fancy-indexing assignments (`PoD_bin`) and the per-column
`np.interp` loop (`PoD_linear`) both act cellwise. -/
def pod_matrix (f : ℚ → ℚ) (m : List (List ℚ)) : List (List ℚ) :=
  m.map (fun col => col.map f)

/-- C7: both reference detection curves map a zero wind-normalized
emission cell to probability exactly 1, so zero-emission cells receive no
partial-detection extra mass. -/
theorem C7_pod_curves_at_zero (m : List (List ℚ)) (i j : ℕ)
    (hi : i < m.length) (hj : j < (m.getD i []).length)
    (h0 : (m.getD i []).getD j 0 = 0) :
    ((pod_matrix PoD_bin m).getD i []).getD j 0 = 1 ∧
    ((pod_matrix PoD_linear m).getD i []).getD j 0 = 1 := by
  have hrow : ∀ f : ℚ → ℚ, (pod_matrix f m).getD i [] = (m.getD i []).map f := by
    intro f
    rw [List.getD_eq_getElem _ _ (by simpa [pod_matrix] using hi),
      List.getD_eq_getElem _ _ hi]
    simp [pod_matrix]
  have hcell : ∀ f : ℚ → ℚ, ((pod_matrix f m).getD i []).getD j 0 = f ((m.getD i []).getD j 0) := by
    intro f
    rw [hrow, List.getD_eq_getElem _ _ (by simpa using hj), List.getD_eq_getElem _ _ hj]
    simp
  rw [hcell, hcell, h0]
  constructor
  · decide
  · decide

/-- Witness for C7 at the concrete one-cell matrix `[[0]]`. -/
theorem C7_pod_curves_at_zero_witness :
    ((pod_matrix PoD_bin [[0]]).getD 0 []).getD 0 0 = 1 ∧
    ((pod_matrix PoD_linear [[0]]).getD 0 []).getD 0 0 = 1 :=
  C7_pod_curves_at_zero [[0]] 0 0 (by decide) (by decide) (by decide)

/-! ## Partial-detection corrector -/

/-- `np.round` rounds half to even (banker's rounding). -/
def round_half_even (x : ℚ) : ℤ :=
  let f := Int.floor x
  let r := x - (f : ℚ)
  if r < 1/2 then f
  else if 1/2 < r then f + 1
  else if f % 2 = 0 then f else f + 1

/-- Message of the `ValueError` in `get_partial_detection_samples`. -/
def podErrMsg : String :=
  "The probability-of-detection for some observation is outside 0<PoD<=1."

/-- The (boolean) validity check of `get_partial_detection_samples`:
`(PoD<=0.).any() or (PoD>1).any()` over every cell of the
probability-of-detection matrix. -/
def pod_invalid (PoD_fn : ℚ → ℚ) (wind_normalized_em : List (List ℚ)) : Bool :=
  (pod_matrix PoD_fn wind_normalized_em).any
    (fun col => col.any (fun p => decide (p ≤ 0) || decide (1 < p)))

/-- `n_undetected = np.int64(np.round((1./PoD) - 1.))`, cellwise.  After
the validity check `1/p - 1 ≥ 0`, so the `ℕ`-valued `toNat` is exact. -/
def pd_n_undetected (PoD_fn : ℚ → ℚ) (wind_normalized_em : List (List ℚ)) : List (List ℕ) :=
  (pod_matrix PoD_fn wind_normalized_em).map
    (fun col => col.map (fun p => (round_half_even (1/p - 1)).toNat))

/-- The duplicated-sample payload of `get_partial_detection_samples`: per
column, each emission repeated `n_undetected` times, zero-padded to the
maximum repeated length over all columns. -/
def pd_dup_columns (PoD_fn : ℚ → ℚ) (wind_normalized_em emissions : List (List ℚ)) :
    List (List ℚ) :=
  let n_undetected := pd_n_undetected PoD_fn wind_normalized_em
  let max_extra_samples := (n_undetected.map (fun col => col.sum)).foldr max 0
  List.zipWith
    (fun ecol ncol =>
      let repeated := (List.zipWith (fun s n => List.replicate n s) ecol ncol).flatten
      repeated ++ List.replicate (max_extra_samples - repeated.length) 0)
    emissions n_undetected

/-- `get_partial_detection_samples` (`roams/aerial/partial_detection.py`):
validate `0 < PoD ≤ 1` over every cell (raising `ValueError` otherwise),
then build the duplicated-samples matrix. -/
def get_partial_detection_samples (PoD_fn : ℚ → ℚ) (wind_normalized_em emissions : List (List ℚ)) :
    Except String (List (List ℚ)) :=
  if pod_invalid PoD_fn wind_normalized_em then .error podErrMsg
  else .ok (pd_dup_columns PoD_fn wind_normalized_em emissions)

/-- The canonical extra-mass matrix of `ROAMSModel.make_aerial_samples`
(`roams/model.py`): `PoD = PoD_fn(wind_norm)`, then cellwise
`(1/PoD - 1) * emissions`. -/
def partial_detection_emiss (PoD_fn : ℚ → ℚ) (wind_normalized_em emissions : List (List ℚ)) :
    List (List ℚ) :=
  List.zipWith (fun wcol ecol => List.zipWith (fun w e => (1 / PoD_fn w - 1) * e) wcol ecol)
    wind_normalized_em emissions

theorem pod_invalid_iff (PoD_fn : ℚ → ℚ) (wind : List (List ℚ)) :
    pod_invalid PoD_fn wind = true ↔
      ∃ col ∈ wind, ∃ w ∈ col, PoD_fn w ≤ 0 ∨ 1 < PoD_fn w := by
  simp [pod_invalid, pod_matrix, List.any_eq_true]

/-- C6: the validating partial-detection routine returns normally exactly
when every cell's detection probability satisfies `0 < p ≤ 1`, and the
extra-mass matrix carries `(1/p - 1) * emission` in every cell. -/
theorem C6_partial_detection_validation (PoD_fn : ℚ → ℚ) (wind emiss : List (List ℚ)) :
    (exceptOk (get_partial_detection_samples PoD_fn wind emiss) = true ↔
      ∀ col ∈ wind, ∀ w ∈ col, 0 < PoD_fn w ∧ PoD_fn w ≤ 1) ∧
    ∀ i j, i < wind.length → i < emiss.length →
      j < (wind.getD i []).length → j < (emiss.getD i []).length →
      ((partial_detection_emiss PoD_fn wind emiss).getD i []).getD j 0
        = (1 / PoD_fn ((wind.getD i []).getD j 0) - 1) * (emiss.getD i []).getD j 0 := by
  constructor
  · rw [get_partial_detection_samples]
    by_cases h : pod_invalid PoD_fn wind = true
    · rw [if_pos h]
      refine iff_of_false (by simp [exceptOk]) ?_
      rcases (pod_invalid_iff PoD_fn wind).mp h with ⟨col, hcol, w, hw, hv⟩
      intro hall
      rcases hall col hcol w hw with ⟨h1, h2⟩
      rcases hv with hv | hv
      · exact absurd h1 (not_lt.mpr hv)
      · exact absurd h2 (not_le.mpr hv)
    · rw [if_neg h]
      refine iff_of_true (by simp [exceptOk]) ?_
      intro col hcol w hw
      rw [pod_invalid_iff] at h
      push_neg at h
      exact h col hcol w hw
  · intro i j hiw hie hjw hje
    have hlen1 : i < (partial_detection_emiss PoD_fn wind emiss).length := by
      rw [partial_detection_emiss, List.length_zipWith]
      exact lt_min hiw hie
    have houter : (partial_detection_emiss PoD_fn wind emiss).getD i []
        = List.zipWith (fun w e => (1 / PoD_fn w - 1) * e) (wind.getD i []) (emiss.getD i []) := by
      rw [List.getD_eq_getElem _ _ hlen1]
      rw [List.getD_eq_getElem _ _ hiw, List.getD_eq_getElem _ _ hie]
      simp only [partial_detection_emiss]
      rw [List.getElem_zipWith]
    have hlen2 : j < (List.zipWith (fun w e => (1 / PoD_fn w - 1) * e)
        (wind.getD i []) (emiss.getD i [])).length := by
      rw [List.length_zipWith]
      exact lt_min hjw hje
    rw [houter, List.getD_eq_getElem _ _ hlen2, List.getElem_zipWith,
      List.getD_eq_getElem _ _ hjw, List.getD_eq_getElem _ _ hje]

/-- Witness for C6: `PoD_bin` on a concrete sample is everywhere valid, so
the routine returns normally, and a concrete extra-mass cell. -/
theorem C6_partial_detection_validation_witness :
    exceptOk (get_partial_detection_samples PoD_bin [[0, 7]] [[2, 3]]) = true ∧
    ((partial_detection_emiss PoD_bin [[0, 7]] [[2, 3]]).getD 0 []).getD 1 0
      = (1 / PoD_bin 7 - 1) * 3 :=
  ⟨(C6_partial_detection_validation PoD_bin [[0, 7]] [[2, 3]]).1.mpr
     (by with_unfolding_all decide),
   (C6_partial_detection_validation PoD_bin [[0, 7]] [[2, 3]]).2 0 1
     (by decide) (by decide) (by decide) (by decide)⟩

/-! ## Transition-point finder (`roams/transition_point.py`) -/

/-- The evaluation grid `xs = np.arange(5, 1000, 1)`: the integers
`5, 6, ..., 999` (995 points). -/
def gridXs : List ℚ :=
  (List.range 995).map (fun i => ((5 + i : ℕ) : ℚ))

/-- One column's cumulative distribution interpolated onto the grid:
`np.interp(xs, x_col, y_col)`.  (The `~np.isnan` filtering of the source
is the identity here: `ℚ` has no NaN, so inputs model already-finite
data.) -/
def interpCol (xcol ycol : List ℚ) : List ℚ :=
  gridXs.map (fun x => np_interp x xcol ycol)

/-- The trailing moving-average smoothing: for each grid index `w`,
`(interp[wmin] - interp[w]) / max(1, w - wmin)` with
`wmin = max(0, w - smoothing_window)` (here `ℕ` subtraction). -/
def smoothCol (window : ℕ) (l : List ℚ) : List ℚ :=
  (List.range l.length).map (fun w =>
    (l.getD (w - window) 0 - l.getD w 0) / ((max 1 (w - (w - window)) : ℕ) : ℚ))

/-- The four input matrices of `find_transition_point`, each a list of
Monte-Carlo columns. -/
structure TPInput where
  aerialX : List (List ℚ)
  aerialY : List (List ℚ)
  simX : List (List ℚ)
  simY : List (List ℚ)

/-- Column `c` of `diff = smooth_aerial_dist - smooth_simmed_dist`. -/
def diffCol (inp : TPInput) (window : ℕ) (c : ℕ) : List ℚ :=
  List.zipWith (fun a b => a - b)
    (smoothCol window (interpCol (inp.aerialX.getD c []) (inp.aerialY.getD c [])))
    (smoothCol window (interpCol (inp.simX.getD c []) (inp.simY.getD c [])))

/-- `np.argmax`/`np.argmin` on a boolean vector: the first index where the
predicate holds, or `0` when it holds nowhere (NumPy returns the first
index of the maximum, which is index 0 for an all-`False` vector). -/
def first_hit_or_zero {α : Type} (p : α → Bool) (l : List α) : ℕ :=
  if l.findIdx p = l.length then 0 else l.findIdx p

/-- The shape guard of `find_transition_point`: all four inputs must have
the same number of columns. -/
def tp_shape_ok (inp : TPInput) : Bool :=
  decide (inp.aerialX.length = inp.simX.length) &&
  decide (inp.aerialY.length = inp.simY.length) &&
  decide (inp.aerialX.length = inp.aerialY.length)

/-- Message of the `IndexError` raised on mismatched column counts. -/
def tpShapeErrMsg : String :=
  "The aerial and simulated x and y data have different numbers of columns."

/-- Message of the `ValueError` raised when a column's smoothed diff
starts negative. -/
def tpDecayErrMsg : String :=
  "The interpolated+smoothed aerial distribution starts below the simulated sample."

/-- `np.where(diff[0,:] < 0)`: the Monte-Carlo columns whose smoothed
diff is negative at the first grid point. -/
def decay_error_cols (inp : TPInput) (window : ℕ) : List ℕ :=
  (List.range inp.aerialX.length).filter
    (fun c => decide ((diffCol inp window c).getD 0 0 < 0))

/-- `xs[np.argmax(diff > 0) - 1]` for one column: NumPy's `-1` index wraps
to the last element, modelled by the `% gridXs.length` arithmetic (the
argmax result lies in `[0, 995)`, so only `-1 ↦ 994` wrapping occurs). -/
def transition_point_col (inp : TPInput) (window : ℕ) (c : ℕ) : ℚ :=
  gridXs.getD
    ((first_hit_or_zero (fun x => decide (0 < x)) (diffCol inp window c)
        + (gridXs.length - 1)) % gridXs.length) 0

/-- `find_transition_point` (`roams/transition_point.py`): shape check,
decay-ordering check, then the per-column transition points. -/
def find_transition_point (inp : TPInput) (window : ℕ) : Except String (List ℚ) :=
  if tp_shape_ok inp = false then .error tpShapeErrMsg
  else if 0 < (decay_error_cols inp window).length then .error tpDecayErrMsg
  else .ok ((List.range inp.aerialX.length).map (transition_point_col inp window))

theorem smoothCol_length (window : ℕ) (l : List ℚ) :
    (smoothCol window l).length = l.length := by
  simp [smoothCol]

theorem interpCol_length (xcol ycol : List ℚ) : (interpCol xcol ycol).length = 995 := by
  rw [interpCol, List.length_map, gridXs, List.length_map, List.length_range]

/-- The head of a `zipWith` of two nonempty lists. -/
theorem zipWith_getD_zero (f : ℚ → ℚ → ℚ) (l1 l2 : List ℚ)
    (h1 : 0 < l1.length) (h2 : 0 < l2.length) :
    (List.zipWith f l1 l2).getD 0 0 = f (l1.getD 0 0) (l2.getD 0 0) := by
  cases l1 with
  | nil => simp at h1
  | cons a t1 =>
    cases l2 with
    | nil => simp at h2
    | cons b t2 => rfl

/-- The first entry of any smoothed column is identically `0`: at `w = 0`
the window is empty, so the numerator is `interp[0] - interp[0]`. -/
theorem smoothCol_head (window : ℕ) (l : List ℚ) (h : 0 < l.length) :
    (smoothCol window l).getD 0 0 = 0 := by
  rw [List.getD_eq_getElem _ _ (by rw [smoothCol_length]; exact h)]
  simp only [smoothCol, List.getElem_map, List.getElem_range]
  simp

/-- The first entry of every diff column is identically `0`. -/
theorem diffCol_head (inp : TPInput) (window c : ℕ) :
    (diffCol inp window c).getD 0 0 = 0 := by
  have hl : ∀ xcol ycol : List ℚ, 0 < (smoothCol window (interpCol xcol ycol)).length := by
    intro xcol ycol
    rw [smoothCol_length, interpCol_length]
    norm_num
  rw [diffCol, zipWith_getD_zero _ _ _ (hl _ _) (hl _ _)]
  rw [smoothCol_head _ _ (by rw [interpCol_length]; norm_num),
    smoothCol_head _ _ (by rw [interpCol_length]; norm_num), sub_self]

/-- The decay-ordering check never fires: `diff[0,:]` is identically
zero, so `diff[0,:] < 0` holds for no column. -/
theorem decay_error_cols_eq_nil (inp : TPInput) (window : ℕ) :
    decay_error_cols inp window = [] := by
  rw [decay_error_cols, List.filter_eq_nil_iff]
  intro c hc
  simp only [diffCol_head]
  simp

/-- C1 (refuting the claimed raise): for every input, the set of columns
flagged by the decay-ordering check of `find_transition_point` is empty,
and the function never returns the decay-ordering `ValueError` — the
smoothed diff at the first grid point is identically zero, so the check
`diff[0,:] < 0` is dead code (the repository's own test
`test_AerialDistDropsFaster_raisesValueError` expects it to fire). -/
theorem C1_decay_error_unreachable (inp : TPInput) (window : ℕ) :
    decay_error_cols inp window = [] ∧
    find_transition_point inp window ≠ .error tpDecayErrMsg := by
  refine ⟨decay_error_cols_eq_nil inp window, ?_⟩
  rw [find_transition_point]
  by_cases h : tp_shape_ok inp = false
  · rw [if_pos h]
    intro hcontra
    have : tpShapeErrMsg = tpDecayErrMsg := by injection hcontra
    exact absurd this (by decide)
  · rw [if_neg h, if_neg (by rw [decay_error_cols_eq_nil]; simp)]
    intro hcontra
    exact Except.noConfusion hcontra

/-- Entries of `zipWith (- ·) l l` are all zero (used to instantiate the
no-crossing hypothesis at inputs whose aerial and simulated data agree). -/
theorem zipWith_sub_self_getD (l : List ℚ) (w : ℕ) :
    (List.zipWith (fun a b => a - b) l l).getD w 0 = 0 := by
  induction l generalizing w with
  | nil => simp
  | cons a t ih =>
    cases w with
    | zero => simp
    | succ w => simp [ih w]

/-- C10: in a column whose diff never becomes strictly positive,
`find_transition_point` does not raise and returns the largest grid value
`999` for that column: `np.argmax(diff > 0)` is `0` on an all-`False`
vector, and the subsequent `- 1` offset selects `xs[-1] = 999` through
NumPy's negative indexing. -/
theorem C10_no_crossing_returns_999 (inp : TPInput) (window c : ℕ)
    (hshape : tp_shape_ok inp = true) (_hc : c < inp.aerialX.length)
    (hneg : ∀ w < (diffCol inp window c).length, (diffCol inp window c).getD w 0 ≤ 0) :
    find_transition_point inp window
      = .ok ((List.range inp.aerialX.length).map (transition_point_col inp window)) ∧
    transition_point_col inp window c = 999 := by
  constructor
  · rw [find_transition_point, if_neg (by rw [hshape]; simp),
      if_neg (by rw [decay_error_cols_eq_nil]; simp)]
  · rw [transition_point_col]
    have hfind : (diffCol inp window c).findIdx (fun x => decide (0 < x))
        = (diffCol inp window c).length := by
      rw [List.findIdx_eq_length]
      intro x hx
      rcases List.mem_iff_getElem.mp hx with ⟨w, hw, rfl⟩
      simp only [decide_eq_false_iff_not, not_lt]
      have := hneg w hw
      rwa [List.getD_eq_getElem _ _ hw] at this
    rw [first_hit_or_zero, if_pos hfind]
    have hlen : gridXs.length = 995 := by
      rw [gridXs, List.length_map, List.length_range]
    have h994 : (994 : ℕ) < gridXs.length := by rw [hlen]; norm_num
    rw [hlen]
    norm_num
    rw [List.getElem?_eq_getElem h994, Option.getD_some]
    simp only [gridXs, List.getElem_map, List.getElem_range]
    norm_num

/-- A concrete input whose aerial and simulated cumulative distributions
coincide, so the smoothed diff is identically zero in its only column. -/
def tpSame : TPInput :=
  ⟨[[(5 : ℚ), 999]], [[(1 : ℚ), 0]], [[(5 : ℚ), 999]], [[(1 : ℚ), 0]]⟩

/-- Witness for C10 at `tpSame`. -/
theorem C10_no_crossing_returns_999_witness :
    find_transition_point tpSame 11
      = .ok ((List.range tpSame.aerialX.length).map (transition_point_col tpSame 11)) ∧
    transition_point_col tpSame 11 0 = 999 :=
  C10_no_crossing_returns_999 tpSame 11 0 (by decide) (by decide)
    (fun w _ => by
      have hd : diffCol tpSame 11 0
          = List.zipWith (fun a b => a - b)
              (smoothCol 11 (interpCol [(5 : ℚ), 999] [(1 : ℚ), 0]))
              (smoothCol 11 (interpCol [(5 : ℚ), 999] [(1 : ℚ), 0])) := rfl
      rw [hd, zipWith_sub_self_getD])

/-! ## Distribution combiner (`ROAMSModel.combine_prod_samples`) -/

/-- `np.pad(col, ((numWells - len(col), 0), ...))`: prepend zero rows so
the column has `numWells` rows.  (NumPy raises for a negative pad width;
`ℕ` subtraction instead pads nothing, a regime outside the theorems.) -/
def padColumn (numWells : ℕ) (col : List ℚ) : List ℚ :=
  List.replicate (numWells - col.length) 0 ++ col

/-- `sim_below_transition = sim[:, n][sim[:, n] < tp]`. -/
def simBelow (tp : ℚ) (simCol : List ℚ) : List ℚ :=
  simCol.filter (fun x => decide (x < tp))

/-- `idx_above_transition = np.argmin(combined[:, n] < tp)`: first index
whose value is at or above `tp`, or `0` when every value is below. -/
def idx_above_transition (tp : ℚ) (col : List ℚ) : ℕ :=
  first_hit_or_zero (fun x => decide (tp ≤ x)) col

/-- Message of the `IndexError` raised when there are too few simulated
values below the transition point. -/
def backfillErrMsg : String :=
  "There are fewer simulated emissions values below the transition point than sites to fill."

/-- The per-column backfill step of `combine_prod_samples`: raise if the
simulated values below `tp` cannot fill the rows before the first aerial
entry at or above `tp`; otherwise replace those rows by draws (with
replacement) from the eligible simulated values and zero the
partial-detection entries of the same rows. -/
def backfillColumn (tp : ℚ) (simCol col pdCol : List ℚ) (draw : ℕ → ℕ) :
    Except String (List ℚ × List ℚ) :=
  if (simBelow tp simCol).length < idx_above_transition tp col then .error backfillErrMsg
  else .ok
    ((List.range (idx_above_transition tp col)).map
        (fun i => (simBelow tp simCol).getD (draw i % (simBelow tp simCol).length) 0)
      ++ col.drop (idx_above_transition tp col),
     List.replicate (idx_above_transition tp col) 0
      ++ pdCol.drop (idx_above_transition tp col))

/-- `np.argsort` of a column: indices that sort the values ascending.
NumPy's default quicksort fixes an unspecified order among equal values;
a stable insertion sort of the `(index, value)` pairs is one faithful
choice, and the properties proved below (sortedness and the shared
permutation) hold for any valid argsort. -/
def argsortQ (l : List ℚ) : List ℕ :=
  (l.enum.insertionSort (fun a b => a.2 ≤ b.2)).map Prod.fst

/-- Fancy indexing `l[idx]` with an index vector. -/
def applyIdx (idx : List ℕ) (l : List ℚ) : List ℚ :=
  idx.map (fun i => l.getD i 0)

/-- The re-sort step of `combine_prod_samples`: one `argsort` of the
combined column, applied identically to the combined column and to the
partial-detection column. -/
def sortPairQ (c p : List ℚ) : List ℚ × List ℚ :=
  (applyIdx (argsortQ c) c, applyIdx (argsortQ c) p)

/-- One Monte-Carlo column of `combine_prod_samples`: pad, backfill,
re-sort both siblings by the combined column's argsort. -/
def combineColumn (numWells : ℕ) (tp : ℚ) (simCol aCol pCol : List ℚ) (draw : ℕ → ℕ) :
    Except String (List ℚ × List ℚ) :=
  match backfillColumn tp simCol (padColumn numWells aCol) (padColumn numWells pCol) draw with
  | .error e => .error e
  | .ok cp => .ok (sortPairQ cp.1 cp.2)

/-- The loop of `combine_prod_samples` over the Monte-Carlo columns in
order, stopping at the first raising column. -/
def combineCols (numWells : ℕ) (aerial pd sim : List (List ℚ)) (tps : List ℚ)
    (draw : ℕ → ℕ → ℕ) : List ℕ → Except String (List (List ℚ × List ℚ))
  | [] => .ok []
  | n :: rest =>
    match combineColumn numWells (tps.getD n 0) (sim.getD n []) (aerial.getD n [])
        (pd.getD n []) (draw n) with
    | .error e => .error e
    | .ok cp =>
      match combineCols numWells aerial pd sim tps draw rest with
      | .error e => .error e
      | .ok l => .ok (cp :: l)

/-- `ROAMSModel.combine_prod_samples` (`roams/model.py`): per-column
backfill and re-sort over all `nMC` Monte-Carlo columns, returning the
pair (combined emissions matrix, combined partial-detection matrix). -/
def combine_prod_samples (numWells nMC : ℕ) (aerial pd sim : List (List ℚ)) (tps : List ℚ)
    (draw : ℕ → ℕ → ℕ) : Except String (List (List ℚ) × List (List ℚ)) :=
  match combineCols numWells aerial pd sim tps draw (List.range nMC) with
  | .error e => .error e
  | .ok l => .ok (l.map Prod.fst, l.map Prod.snd)

theorem idx_above_le_length (tp : ℚ) (col : List ℚ) :
    idx_above_transition tp col ≤ col.length := by
  rw [idx_above_transition, first_hit_or_zero]
  by_cases h : col.findIdx (fun x => decide (tp ≤ x)) = col.length
  · rw [if_pos h]
    exact Nat.zero_le _
  · rw [if_neg h]
    exact List.findIdx_le_length _

/-- When some entry is at or above `tp`, the code's `argmin` equals the
first index at or above `tp`. -/
theorem idx_above_eq_findIdx (tp : ℚ) (col : List ℚ) (h : ∃ x ∈ col, tp ≤ x) :
    idx_above_transition tp col = col.findIdx (fun x => decide (tp ≤ x)) := by
  rw [idx_above_transition, first_hit_or_zero, if_neg]
  exact Nat.ne_of_lt (List.findIdx_lt_length_of_exists (by simpa using h))

theorem exceptOk_map {α β : Type} (f : α → β) (e : Except String α) :
    exceptOk (Except.map f e) = exceptOk e := by
  cases e <;> rfl

theorem combineColumn_isOk_iff (numWells : ℕ) (tp : ℚ) (simCol aCol pCol : List ℚ)
    (draw : ℕ → ℕ) :
    exceptOk (combineColumn numWells tp simCol aCol pCol draw) = true ↔
      idx_above_transition tp (padColumn numWells aCol) ≤ (simBelow tp simCol).length := by
  rw [combineColumn, backfillColumn]
  by_cases h : (simBelow tp simCol).length < idx_above_transition tp (padColumn numWells aCol)
  · rw [if_pos h]
    simp only [exceptOk]
    constructor
    · intro hc
      exact absurd hc (by simp)
    · intro hle
      omega
  · rw [if_neg h]
    simp only [exceptOk]
    constructor
    · intro _
      omega
    · intro _
      trivial

theorem combineCols_isOk_iff (numWells : ℕ) (aerial pd sim : List (List ℚ)) (tps : List ℚ)
    (draw : ℕ → ℕ → ℕ) (ns : List ℕ) :
    exceptOk (combineCols numWells aerial pd sim tps draw ns) = true ↔
      ∀ n ∈ ns, exceptOk (combineColumn numWells (tps.getD n 0) (sim.getD n [])
        (aerial.getD n []) (pd.getD n []) (draw n)) = true := by
  induction ns with
  | nil => simp [combineCols, exceptOk]
  | cons n rest ih =>
    rw [combineCols]
    cases hcc : combineColumn numWells (tps.getD n 0) (sim.getD n [])
        (aerial.getD n []) (pd.getD n []) (draw n) with
    | error e =>
      simp only [List.forall_mem_cons, hcc]
      constructor
      · intro hfalse
        exact absurd hfalse (by simp [exceptOk])
      · intro h
        exact absurd h.1 (by simp [exceptOk])
    | ok cp =>
      cases hrec : combineCols numWells aerial pd sim tps draw rest with
      | error e =>
        rw [hrec] at ih
        simp only [List.forall_mem_cons, hcc]
        constructor
        · intro hfalse
          exact absurd hfalse (by simp [exceptOk])
        · intro h
          exact absurd (ih.mpr h.2) (by simp [exceptOk])
      | ok l =>
        rw [hrec] at ih
        simp only [List.forall_mem_cons, hcc]
        constructor
        · intro _
          exact ⟨rfl, ih.mp rfl⟩
        · intro _
          rfl

/-- C2: the combiner returns normally exactly when, in every Monte-Carlo
column, the count of simulated values strictly below that column's
transition point is at least the number of rows to replace — the rows
preceding the first index of the (zero-padded) aerial column whose value
is at or above the transition point. -/
theorem C2_combine_backfill_sufficiency (numWells nMC : ℕ) (aerial pd sim : List (List ℚ))
    (tps : List ℚ) (draw : ℕ → ℕ → ℕ)
    (hex : ∀ n < nMC, ∃ x ∈ padColumn numWells (aerial.getD n []), tps.getD n 0 ≤ x) :
    exceptOk (combine_prod_samples numWells nMC aerial pd sim tps draw) = true ↔
      ∀ n < nMC,
        (padColumn numWells (aerial.getD n [])).findIdx (fun x => decide (tps.getD n 0 ≤ x))
          ≤ (simBelow (tps.getD n 0) (sim.getD n [])).length := by
  have hmain : exceptOk (combine_prod_samples numWells nMC aerial pd sim tps draw)
      = exceptOk (combineCols numWells aerial pd sim tps draw (List.range nMC)) := by
    rw [combine_prod_samples]
    cases combineCols numWells aerial pd sim tps draw (List.range nMC) <;> rfl
  rw [hmain, combineCols_isOk_iff]
  constructor
  · intro h n hn
    have := (combineColumn_isOk_iff _ _ _ _ _ _).mp (h n (List.mem_range.mpr hn))
    rwa [idx_above_eq_findIdx _ _ (hex n hn)] at this
  · intro h n hn
    rw [combineColumn_isOk_iff, idx_above_eq_findIdx _ _ (hex n (List.mem_range.mp hn))]
    exact h n (List.mem_range.mp hn)

/-- Witness for C2: three wells, one column, aerial `[4,10]` padded to
`[0,4,10]`, transition point `5`, simulated `[1,2,6]`; two rows must be
replaced and two simulated values lie below `5`, so no error. -/
theorem C2_combine_backfill_sufficiency_witness :
    exceptOk (combine_prod_samples 3 1 [[4, 10]] [[0, 0]] [[1, 2, 6]] [5] (fun _ _ => 0))
      = true :=
  (C2_combine_backfill_sufficiency 3 1 [[4, 10]] [[0, 0]] [[1, 2, 6]] [5] (fun _ _ => 0)
    (by 
      intro n hn
      interval_cases n
      exact ⟨10, by with_unfolding_all decide, by norm_num⟩)).mpr
    (by
      intro n hn
      interval_cases n
      with_unfolding_all decide)

instance : IsTotal (ℕ × ℚ) (fun a b => a.2 ≤ b.2) :=
  ⟨fun a b => le_total a.2 b.2⟩

instance : IsTrans (ℕ × ℚ) (fun a b => a.2 ≤ b.2) :=
  ⟨fun _ _ _ h1 h2 => le_trans h1 h2⟩

/-- An argsort is a permutation of the row indices. -/
theorem argsortQ_perm (l : List ℚ) : List.Perm (argsortQ l) (List.range l.length) := by
  have h1 := List.perm_insertionSort (fun a b : ℕ × ℚ => a.2 ≤ b.2) l.enum
  have h2 := h1.map Prod.fst
  rwa [List.enum_map_fst] at h2

theorem mem_enum_getD (l : List ℚ) (pr : ℕ × ℚ) (h : pr ∈ l.enum) :
    l.getD pr.1 0 = pr.2 := by
  obtain ⟨i, a⟩ := pr
  have hg : l[i]? = some a := by
    simpa using List.mk_mem_enum_iff_getElem?.mp h
  simp [List.getD_eq_getElem?_getD, hg]

/-- Fancy indexing by the argsort recovers the sorted value list. -/
theorem applyIdx_argsortQ_eq (l : List ℚ) :
    applyIdx (argsortQ l) l
      = (l.enum.insertionSort (fun a b => a.2 ≤ b.2)).map Prod.snd := by
  rw [applyIdx, argsortQ, List.map_map]
  refine List.map_congr_left ?_
  intro pr hpr
  have hmem : pr ∈ l.enum :=
    (List.perm_insertionSort (fun a b : ℕ × ℚ => a.2 ≤ b.2) l.enum).mem_iff.mp hpr
  exact mem_enum_getD l pr hmem

/-- The combined column is sorted ascending after applying its argsort. -/
theorem applyIdx_argsortQ_sorted (l : List ℚ) :
    (applyIdx (argsortQ l) l).Sorted (· ≤ ·) := by
  rw [applyIdx_argsortQ_eq]
  have hs : (l.enum.insertionSort (fun a b => a.2 ≤ b.2)).Sorted (fun a b => a.2 ≤ b.2) :=
    List.sorted_insertionSort _ _
  exact hs.map Prod.snd (fun _ _ h => h)

theorem range_map_getD_zip (c p : List ℚ) (hlen : p.length = c.length) :
    (List.range c.length).map (fun i => (c.getD i 0, p.getD i 0)) = c.zip p := by
  induction c generalizing p with
  | nil => simp
  | cons a t ih =>
    cases p with
    | nil => simp at hlen
    | cons b s =>
      rw [List.length_cons, List.range_succ_eq_map, List.map_cons, List.map_map,
        List.zip_cons_cons]
      simp only [List.getD_cons_zero]
      congr 1
      rw [← ih s (by simpa using hlen)]
      refine List.map_congr_left ?_
      intro i _
      simp

/-- Applying one index permutation to both sibling columns permutes the
row-aligned pairs. -/
theorem applyIdx_zip_perm (c p : List ℚ) (σ : List ℕ)
    (hσ : List.Perm σ (List.range c.length)) (hlen : p.length = c.length) :
    List.Perm ((applyIdx σ c).zip (applyIdx σ p)) (c.zip p) := by
  rw [applyIdx, applyIdx, List.zip_map']
  have h := hσ.map (fun i => (c.getD i 0, p.getD i 0))
  rwa [range_map_getD_zip c p hlen] at h

theorem padColumn_length (numWells : ℕ) (col : List ℚ) :
    (padColumn numWells col).length = (numWells - col.length) + col.length := by
  simp [padColumn]

theorem backfillColumn_ok_eq (tp : ℚ) (simCol col pdCol : List ℚ) (draw : ℕ → ℕ)
    (c₀ p₀ : List ℚ)
    (h : backfillColumn tp simCol col pdCol draw = .ok (c₀, p₀)) :
    c₀ = (List.range (idx_above_transition tp col)).map
        (fun i => (simBelow tp simCol).getD (draw i % (simBelow tp simCol).length) 0)
      ++ col.drop (idx_above_transition tp col) ∧
    p₀ = List.replicate (idx_above_transition tp col) 0
      ++ pdCol.drop (idx_above_transition tp col) := by
  rw [backfillColumn] at h
  by_cases hc : (simBelow tp simCol).length < idx_above_transition tp col
  · rw [if_pos hc] at h
    exact absurd h (by simp)
  · rw [if_neg hc] at h
    injection h with h'
    exact ⟨(congrArg Prod.fst h').symm, (congrArg Prod.snd h').symm⟩

theorem backfillColumn_ok_lengths (tp : ℚ) (simCol col pdCol : List ℚ) (draw : ℕ → ℕ)
    (c₀ p₀ : List ℚ) (hcp : pdCol.length = col.length)
    (h : backfillColumn tp simCol col pdCol draw = .ok (c₀, p₀)) :
    c₀.length = col.length ∧ p₀.length = col.length := by
  obtain ⟨hc, hp⟩ := backfillColumn_ok_eq tp simCol col pdCol draw c₀ p₀ h
  have hidx := idx_above_le_length tp col
  rw [hc, hp]
  constructor
  · simp only [List.length_append, List.length_map, List.length_range, List.length_drop]
    omega
  · simp only [List.length_append, List.length_replicate, List.length_drop]
    omega

theorem combineCols_ok_getD (numWells : ℕ) (aerial pd sim : List (List ℚ)) (tps : List ℚ)
    (draw : ℕ → ℕ → ℕ) (ns : List ℕ) (L : List (List ℚ × List ℚ))
    (h : combineCols numWells aerial pd sim tps draw ns = .ok L) :
    L.length = ns.length ∧
    ∀ k < ns.length,
      combineColumn numWells (tps.getD (ns.getD k 0) 0) (sim.getD (ns.getD k 0) [])
        (aerial.getD (ns.getD k 0) []) (pd.getD (ns.getD k 0) []) (draw (ns.getD k 0))
        = .ok (L.getD k ([], [])) := by
  induction ns generalizing L with
  | nil =>
    rw [combineCols] at h
    injection h with h'
    subst h'
    exact ⟨rfl, by intro k hk; simp at hk⟩
  | cons n rest ih =>
    rw [combineCols] at h
    cases hcc : combineColumn numWells (tps.getD n 0) (sim.getD n [])
        (aerial.getD n []) (pd.getD n []) (draw n) with
    | error e =>
      simp only [hcc] at h
      exact absurd h (by simp)
    | ok cp =>
      simp only [hcc] at h
      cases hrec : combineCols numWells aerial pd sim tps draw rest with
      | error e =>
        simp only [hrec] at h
        exact absurd h (by simp)
      | ok l =>
        simp only [hrec] at h
        injection h with h'
        obtain ⟨hlen, hall⟩ := ih l hrec
        subst h'
        refine ⟨by simp [hlen], ?_⟩
        intro k hk
        cases k with
        | zero =>
          simpa [hcc] using hcc
        | succ k =>
          have hk' : k < rest.length := by simpa using hk
          simpa using hall k hk'

/-- C4: when the combiner returns, every Monte-Carlo column of the
combined matrix is sorted non-decreasing, and the partial-detection
column has been permuted by the identical permutation (the argsort of the
combined column), so the row-aligned (emission, extra-mass) pairs of the
output are a permutation of the backfilled pre-sort pairs. -/
theorem C4_combine_sorted_aligned (numWells nMC : ℕ) (aerial pd sim : List (List ℚ))
    (tps : List ℚ) (draw : ℕ → ℕ → ℕ) (cm pm : List (List ℚ))
    (hlen : ∀ n < nMC, (aerial.getD n []).length = (pd.getD n []).length)
    (hok : combine_prod_samples numWells nMC aerial pd sim tps draw = .ok (cm, pm)) :
    ∀ n < nMC,
      (cm.getD n []).Sorted (· ≤ ·) ∧
      ∃ c₀ p₀,
        backfillColumn (tps.getD n 0) (sim.getD n []) (padColumn numWells (aerial.getD n []))
          (padColumn numWells (pd.getD n [])) (draw n) = .ok (c₀, p₀) ∧
        List.Perm ((cm.getD n []).zip (pm.getD n [])) (c₀.zip p₀) := by
  rw [combine_prod_samples] at hok
  cases hcols : combineCols numWells aerial pd sim tps draw (List.range nMC) with
  | error e =>
    simp only [hcols] at hok
    exact absurd hok (by simp)
  | ok L =>
    simp only [hcols] at hok
    injection hok with hok'
    have hcm : cm = L.map Prod.fst := (congrArg Prod.fst hok').symm
    have hpm : pm = L.map Prod.snd := (congrArg Prod.snd hok').symm
    obtain ⟨hLlen, hall⟩ := combineCols_ok_getD numWells aerial pd sim tps draw
      (List.range nMC) L hcols
    intro n hn
    have hn'' : n < (List.range nMC).length := by simpa using hn
    have hrange : (List.range nMC).getD n 0 = n := by
      rw [List.getD_eq_getElem _ _ hn'', List.getElem_range]
    have hcol := hall n hn''
    rw [hrange] at hcol
    rw [combineColumn] at hcol
    cases hb : backfillColumn (tps.getD n 0) (sim.getD n [])
        (padColumn numWells (aerial.getD n [])) (padColumn numWells (pd.getD n []))
        (draw n) with
    | error e =>
      simp only [hb] at hcol
      exact absurd hcol (by simp)
    | ok cp =>
      obtain ⟨c₀, p₀⟩ := cp
      simp only [hb] at hcol
      injection hcol with hcol'
      have hn' : n < L.length := by rw [hLlen]; simpa using hn
      have hcmn : cm.getD n [] = (L.getD n ([], [])).1 := by
        rw [hcm, List.getD_eq_getElem _ _ (by simpa using hn'), List.getElem_map,
          List.getD_eq_getElem _ _ hn']
      have hpmn : pm.getD n [] = (L.getD n ([], [])).2 := by
        rw [hpm, List.getD_eq_getElem _ _ (by simpa using hn'), List.getElem_map,
          List.getD_eq_getElem _ _ hn']
      rw [hcmn, hpmn, ← hcol']
      have hpadlen : (padColumn numWells (pd.getD n [])).length
          = (padColumn numWells (aerial.getD n [])).length := by
        rw [padColumn_length, padColumn_length, hlen n hn]
      obtain ⟨hc₀, hp₀⟩ := backfillColumn_ok_lengths _ _ _ _ _ _ _ hpadlen hb
      refine ⟨?_, c₀, p₀, rfl, ?_⟩
      · exact applyIdx_argsortQ_sorted c₀
      · exact applyIdx_zip_perm c₀ p₀ (argsortQ c₀) (argsortQ_perm c₀) (by rw [hc₀, hp₀])

/-- Witness for C4 at a one-column instance: combined column `[1,1,10]`
(two backfilled rows and the kept aerial `10`), extra mass `[0,0,0]`. -/
theorem C4_combine_sorted_aligned_witness :
    (([[(1 : ℚ), 1, 10]] : List (List ℚ)).getD 0 []).Sorted (· ≤ ·) ∧
    ∃ c₀ p₀,
      backfillColumn (([(5 : ℚ)] : List ℚ).getD 0 0) (([[(1 : ℚ), 2, 6]] : List (List ℚ)).getD 0 [])
        (padColumn 3 (([[(4 : ℚ), 10]] : List (List ℚ)).getD 0 []))
        (padColumn 3 (([[(0 : ℚ), 0]] : List (List ℚ)).getD 0 []))
        ((fun _ _ => 0) 0) = .ok (c₀, p₀) ∧
      List.Perm ((([[(1 : ℚ), 1, 10]] : List (List ℚ)).getD 0 []).zip
        (([[(0 : ℚ), 0, 0]] : List (List ℚ)).getD 0 [])) (c₀.zip p₀) :=
  C4_combine_sorted_aligned 3 1 [[4, 10]] [[0, 0]] [[1, 2, 6]] [5] (fun _ _ => 0)
    [[1, 1, 10]] [[0, 0, 0]]
    (by
      intro n hn
      interval_cases n
      rfl)
    (by with_unfolding_all rfl) 0 (by norm_num)

/-- C3: in a column processed without error, every backfilled row has its
partial-detection entry set to `0`, and consequently every output pair
carrying nonzero partial-detection mass comes from a kept aerial row (no
mass attributed to a discarded aerial observation survives the combine). -/
theorem C3_backfilled_rows_zero_mass (numWells : ℕ) (tp : ℚ) (simCol aCol pCol : List ℚ)
    (draw : ℕ → ℕ) (c₀ p₀ : List ℚ)
    (hlen : aCol.length = pCol.length)
    (hb : backfillColumn tp simCol (padColumn numWells aCol) (padColumn numWells pCol) draw
      = .ok (c₀, p₀)) :
    combineColumn numWells tp simCol aCol pCol draw = .ok (sortPairQ c₀ p₀) ∧
    (∀ i < idx_above_transition tp (padColumn numWells aCol), p₀.getD i 0 = 0) ∧
    ∀ pr ∈ (sortPairQ c₀ p₀).1.zip (sortPairQ c₀ p₀).2, pr.2 ≠ 0 →
      pr ∈ ((padColumn numWells aCol).drop (idx_above_transition tp (padColumn numWells aCol))).zip
        ((padColumn numWells pCol).drop (idx_above_transition tp (padColumn numWells aCol))) := by
  obtain ⟨hc₀, hp₀⟩ := backfillColumn_ok_eq _ _ _ _ _ _ _ hb
  have hpadlen : (padColumn numWells pCol).length = (padColumn numWells aCol).length := by
    rw [padColumn_length, padColumn_length, hlen]
  obtain ⟨hlc, hlp⟩ := backfillColumn_ok_lengths _ _ _ _ _ _ _ hpadlen hb
  refine ⟨by simp only [combineColumn, hb], ?_, ?_⟩
  · intro i hi
    rw [hp₀, List.getD_append _ _ _ _ (by simpa using hi)]
    rw [List.getD_eq_getElem _ _ (by simpa using hi), List.getElem_replicate]
  · intro pr hpr hpr2
    have hperm : List.Perm ((sortPairQ c₀ p₀).1.zip (sortPairQ c₀ p₀).2) (c₀.zip p₀) := by
      simp only [sortPairQ]
      exact applyIdx_zip_perm c₀ p₀ (argsortQ c₀) (argsortQ_perm c₀) (by rw [hlc, hlp])
    have hmem : pr ∈ c₀.zip p₀ := hperm.mem_iff.mp hpr
    rw [hc₀, hp₀, List.zip_append (by simp)] at hmem
    rcases List.mem_append.mp hmem with hl | hr
    · obtain ⟨x, y⟩ := pr
      have := (List.of_mem_zip hl).2
      exact absurd (List.eq_of_mem_replicate this) hpr2
    · exact hr

/-- Witness for C3: two wells, transition point `5`, one aerial row `7`
with extra mass `9`; the single backfilled row gets extra mass `0`. -/
theorem C3_backfilled_rows_zero_mass_witness :
    combineColumn 2 5 [1, 2] [7] [9] (fun _ => 1) = .ok (sortPairQ [2, 7] [0, 9]) ∧
    (∀ i < idx_above_transition 5 (padColumn 2 [7]), ([(0 : ℚ), 9]).getD i 0 = 0) ∧
    ∀ pr ∈ (sortPairQ [2, 7] [0, 9]).1.zip (sortPairQ [2, 7] [0, 9]).2, pr.2 ≠ 0 →
      pr ∈ ((padColumn 2 [7]).drop (idx_above_transition 5 (padColumn 2 [7]))).zip
        ((padColumn 2 [9]).drop (idx_above_transition 5 (padColumn 2 [7]))) :=
  C3_backfilled_rows_zero_mass 2 5 [1, 2] [7] [9] (fun _ => 1) [2, 7] [0, 9]
    rfl (by with_unfolding_all rfl)

/-! ## Stratified resampler (`roams/simulated/stratify.py`) -/

/-- Message of the `ValueError` for mismatched input lengths. -/
def stratLenErrMsg : String :=
  "The simulated emissions and simulated production values differ in length."

/-- Message of the `ValueError` when bins rounding to zero hold at least
20 percent of the target mass. -/
def stratMassErrMsg : String :=
  "At least 20 percent of samples would be drawn from bins rounded down to 0 samples."

/-- Message modelling the `ValueError` `np.random.choice` raises for a
negative sample count (possible if the largest-bin adjustment drives a
count negative). -/
def stratNegErrMsg : String :=
  "np.random.choice was given a negative sample count."

/-- Message modelling the `ValueError` `np.random.choice` raises when
drawing a positive number of samples from an empty bin. -/
def stratEmptyErrMsg : String :=
  "np.random.choice was asked to draw from an empty bin."

/-- The bin edges `np.quantile(sim_production, quantiles)` with
`sim_quantiles[0] = 0`; the source also sets the last edge to `np.inf`,
which the bin predicates below realize by dropping the upper comparison
on the final bin. -/
def strat_edges (simProd : List ℚ) (qs : List ℚ) : List ℚ :=
  (qs.map (np_quantile simProd)).set 0 0

/-- Number of quantile bins. -/
def strat_nbins (qs : List ℚ) : ℕ := qs.length - 1

/-- `pd.cut(covered_productivity, sim_quantiles, right=False)` count for
bin `k`: the interval `[e_k, e_{k+1})`, the final right edge being `+∞`. -/
def strat_bin_count (simProd covered : List ℚ) (qs : List ℚ) (k : ℕ) : ℕ :=
  if k + 2 = (strat_edges simProd qs).length then
    covered.countP (fun v => decide ((strat_edges simProd qs).getD k 0 ≤ v))
  else
    covered.countP (fun v => decide ((strat_edges simProd qs).getD k 0 ≤ v ∧
      v < (strat_edges simProd qs).getD (k+1) 0))

/-- The scaled target count `count * n_infra / len(covered_productivity)`
of bin `k`. -/
def strat_scaled (simProd covered : List ℚ) (nInfra : ℕ) (qs : List ℚ) (k : ℕ) : ℚ :=
  (strat_bin_count simProd covered qs k : ℚ) * nInfra / covered.length

/-- `prod_count_by_bin[prod_count_by_bin < .5].sum()`: the total scaled
mass of the bins that would round to zero samples. -/
def strat_zero_mass (simProd covered : List ℚ) (nInfra : ℕ) (qs : List ℚ) : ℚ :=
  ((List.range (strat_nbins qs)).map
    (fun k => if strat_scaled simProd covered nInfra qs k < 1/2
      then strat_scaled simProd covered nInfra qs k else 0)).sum

/-- `(x + .5).astype(int)`: round half up (floor of `x + 1/2`), chosen in
the source over NumPy's banker's rounding. -/
def strat_round (x : ℚ) : ℤ := Int.floor (x + 1/2)

/-- The rounded per-bin counts. -/
def strat_rounded (simProd covered : List ℚ) (nInfra : ℕ) (qs : List ℚ) : List ℤ :=
  (List.range (strat_nbins qs)).map
    (fun k => strat_round (strat_scaled simProd covered nInfra qs k))

/-- pandas `idxmax`: the first index holding the maximum. -/
def idx_max (l : List ℤ) : ℕ := l.findIdx (fun x => decide (∀ y ∈ l, y ≤ x))

/-- The counts after forcing the sum to `n_infra` by adjusting the
largest bin. -/
def strat_adjusted (simProd covered : List ℚ) (nInfra : ℕ) (qs : List ℚ) : List ℤ :=
  (strat_rounded simProd covered nInfra qs).set
    (idx_max (strat_rounded simProd covered nInfra qs))
    ((strat_rounded simProd covered nInfra qs).getD
        (idx_max (strat_rounded simProd covered nInfra qs)) 0
      + ((nInfra : ℤ) - (strat_rounded simProd covered nInfra qs).sum))

/-- The simulated emissions eligible for bin `k`:
`sim_emissions[(sim_production > p_min) & (sim_production <= p_max)]`,
with `p_max = +∞` on the final bin. -/
def strat_bin_members (simEm simProd : List ℚ) (qs : List ℚ) (k : ℕ) : List ℚ :=
  ((simEm.zip simProd).filter (fun pr =>
    if k + 2 = (strat_edges simProd qs).length then
      decide ((strat_edges simProd qs).getD k 0 < pr.2)
    else
      decide ((strat_edges simProd qs).getD k 0 < pr.2 ∧
        pr.2 ≤ (strat_edges simProd qs).getD (k+1) 0))).map Prod.fst

/-- One Monte-Carlo column before the final sort: the per-bin draws with
replacement, stacked in bin order. -/
def strat_column_presort (simEm simProd covered : List ℚ) (nInfra : ℕ) (qs : List ℚ)
    (draw : ℕ → ℕ → ℕ → ℕ) (j : ℕ) : List ℚ :=
  ((List.range (strat_nbins qs)).map (fun k =>
    (List.range ((strat_adjusted simProd covered nInfra qs).getD k 0).toNat).map
      (fun i => (strat_bin_members simEm simProd qs k).getD
        (draw k i j % (strat_bin_members simEm simProd qs k).length) 0))).flatten

/-- `stratify_sample` (`roams/simulated/stratify.py`): length check, the
20-percent zero-rounded-mass check, the `np.random.choice` failure modes,
then the per-column stacked draws, each column sorted ascending. -/
def stratify_sample (simEm simProd covered : List ℚ) (nInfra nMC : ℕ) (qs : List ℚ)
    (draw : ℕ → ℕ → ℕ → ℕ) : Except String (List (List ℚ)) :=
  if simEm.length ≠ simProd.length then .error stratLenErrMsg
  else if strat_zero_mass simProd covered nInfra qs / nInfra ≥ 1/5 then .error stratMassErrMsg
  else if (List.range (strat_nbins qs)).any
      (fun k => decide ((strat_adjusted simProd covered nInfra qs).getD k 0 < 0)) then
    .error stratNegErrMsg
  else if (List.range (strat_nbins qs)).any
      (fun k => decide (0 < (strat_adjusted simProd covered nInfra qs).getD k 0)
        && decide ((strat_bin_members simEm simProd qs k).length = 0)) then
    .error stratEmptyErrMsg
  else
    .ok ((List.range nMC).map
      (fun j => sortAsc (strat_column_presort simEm simProd covered nInfra qs draw j)))

theorem sum_set_add (l : List ℤ) (k : ℕ) (d : ℤ) (hk : k < l.length) :
    (l.set k (l.getD k 0 + d)).sum = l.sum + d := by
  induction l generalizing k with
  | nil => simp at hk
  | cons a t ih =>
    cases k with
    | zero =>
      simp only [List.getD_cons_zero, List.set_cons_zero, List.sum_cons]
      ring
    | succ k =>
      simp only [List.getD_cons_succ, List.set_cons_succ, List.sum_cons,
        ih k (by simpa using hk)]
      ring

theorem exists_max_mem (l : List ℤ) (h : l ≠ []) : ∃ x ∈ l, ∀ y ∈ l, y ≤ x := by
  induction l with
  | nil => simp at h
  | cons a t ih =>
    cases t with
    | nil => exact ⟨a, by simp, by simp⟩
    | cons b s =>
      obtain ⟨x, hx, hmax⟩ := ih (by simp)
      by_cases hax : a ≤ x
      · refine ⟨x, List.mem_cons_of_mem a hx, ?_⟩
        intro y hy
        rcases List.mem_cons.mp hy with rfl | hy
        · exact hax
        · exact hmax y hy
      · refine ⟨a, List.mem_cons_self a _, ?_⟩
        intro y hy
        rcases List.mem_cons.mp hy with rfl | hy
        · exact le_refl y
        · exact le_trans (hmax y hy) (le_of_not_le hax)

theorem idx_max_lt_length (l : List ℤ) (h : l ≠ []) : idx_max l < l.length := by
  rw [idx_max]
  apply List.findIdx_lt_length_of_exists
  obtain ⟨x, hx, hmax⟩ := exists_max_mem l h
  exact ⟨x, hx, by simpa using hmax⟩

/-- C9: `stratify_sample` raises the 20-percent error exactly when the
scaled counts that round to zero (`< 1/2`, i.e. round-half-up to 0) hold
at least a fifth of the target mass `n_infra`; the adjusted counts always
sum to `n_infra`; and the rounding in use is round-half-up
(`strat_round`), not NumPy's banker's rounding (`round_half_even`), as
the values `1/2` and `5/2` distinguish. -/
theorem C9_strat_mass_error (simEm simProd covered : List ℚ) (nInfra nMC : ℕ) (qs : List ℚ)
    (draw : ℕ → ℕ → ℕ → ℕ) (hlen : simEm.length = simProd.length) (hq : 2 ≤ qs.length) :
    (stratify_sample simEm simProd covered nInfra nMC qs draw = .error stratMassErrMsg ↔
      strat_zero_mass simProd covered nInfra qs / nInfra ≥ 1/5) ∧
    (strat_adjusted simProd covered nInfra qs).sum = nInfra ∧
    strat_round (1/2) = 1 ∧ strat_round (5/2) = 3 ∧
    round_half_even (1/2) = 0 ∧ round_half_even (5/2) = 2 := by
  refine ⟨?_, ?_, ?_, ?_, ?_, ?_⟩
  · rw [stratify_sample, if_neg (by omega)]
    by_cases hm : strat_zero_mass simProd covered nInfra qs / nInfra ≥ 1/5
    · rw [if_pos hm]
      exact iff_of_true rfl hm
    · rw [if_neg hm]
      refine iff_of_false ?_ hm
      intro hcontra
      by_cases h3 : ((List.range (strat_nbins qs)).any
          (fun k => decide ((strat_adjusted simProd covered nInfra qs).getD k 0 < 0))) = true
      · rw [if_pos h3] at hcontra
        injection hcontra with hmsg
        exact absurd hmsg (by decide)
      · rw [if_neg h3] at hcontra
        by_cases h4 : ((List.range (strat_nbins qs)).any
            (fun k => decide (0 < (strat_adjusted simProd covered nInfra qs).getD k 0)
              && decide ((strat_bin_members simEm simProd qs k).length = 0))) = true
        · rw [if_pos h4] at hcontra
          injection hcontra with hmsg
          exact absurd hmsg (by decide)
        · rw [if_neg h4] at hcontra
          exact Except.noConfusion hcontra
  · have hrlen : (strat_rounded simProd covered nInfra qs).length = strat_nbins qs := by
      simp [strat_rounded]
    have hne : strat_rounded simProd covered nInfra qs ≠ [] := by
      apply List.ne_nil_of_length_pos
      rw [hrlen, strat_nbins]
      omega
    rw [strat_adjusted, sum_set_add _ _ _ (idx_max_lt_length _ hne)]
    omega
  · with_unfolding_all decide
  · with_unfolding_all decide
  · with_unfolding_all decide
  · with_unfolding_all decide

/-- Witness for C9 at a concrete exact-binning instance (no bin rounds to
zero, so the mass condition is false and the counts sum to 4). -/
theorem C9_strat_mass_error_witness :
    (stratify_sample [3, 1, 4, 2] [10, 20, 30, 40] [10, 20, 30, 40] 4 2
        [0, 1/4, 1/2, 3/4, 1] (fun _ _ _ => 0) = .error stratMassErrMsg ↔
      strat_zero_mass [10, 20, 30, 40] [10, 20, 30, 40] 4 [0, 1/4, 1/2, 3/4, 1] / 4 ≥ 1/5) ∧
    (strat_adjusted [10, 20, 30, 40] [10, 20, 30, 40] 4 [0, 1/4, 1/2, 3/4, 1]).sum = 4 ∧
    strat_round (1/2) = 1 ∧ strat_round (5/2) = 3 ∧
    round_half_even (1/2) = 0 ∧ round_half_even (5/2) = 2 :=
  C9_strat_mass_error [3, 1, 4, 2] [10, 20, 30, 40] [10, 20, 30, 40] 4 2
    [0, 1/4, 1/2, 3/4, 1] (fun _ _ _ => 0) rfl (by norm_num)

/-- C5: identity under exact binning.  Four simulated values with
pairwise-distinct positive weights, quarter-quantile breakpoints, and the
reference distribution equal to the weights map one value into each bin;
every Monte-Carlo column of the stratified sample is then exactly the
original simulated values sorted ascending, whatever the random draws. -/
theorem C5_strat_identity_exact_binning (nMC : ℕ) (draw : ℕ → ℕ → ℕ → ℕ) :
    stratify_sample [3, 1, 4, 2] [10, 20, 30, 40] [10, 20, 30, 40] 4 nMC
      [0, 1/4, 1/2, 3/4, 1] draw = .ok (List.replicate nMC [1, 2, 3, 4]) := by
  have ha0 : ((strat_adjusted [10, 20, 30, 40] [10, 20, 30, 40] 4
      [0, 1/4, 1/2, 3/4, 1]).getD 0 0).toNat = 1 := by with_unfolding_all rfl
  have ha1 : ((strat_adjusted [10, 20, 30, 40] [10, 20, 30, 40] 4
      [0, 1/4, 1/2, 3/4, 1]).getD 1 0).toNat = 1 := by with_unfolding_all rfl
  have ha2 : ((strat_adjusted [10, 20, 30, 40] [10, 20, 30, 40] 4
      [0, 1/4, 1/2, 3/4, 1]).getD 2 0).toNat = 1 := by with_unfolding_all rfl
  have ha3 : ((strat_adjusted [10, 20, 30, 40] [10, 20, 30, 40] 4
      [0, 1/4, 1/2, 3/4, 1]).getD 3 0).toNat = 1 := by with_unfolding_all rfl
  have hm0 : strat_bin_members [3, 1, 4, 2] [10, 20, 30, 40] [0, 1/4, 1/2, 3/4, 1] 0 = [3] := by
    with_unfolding_all rfl
  have hm1 : strat_bin_members [3, 1, 4, 2] [10, 20, 30, 40] [0, 1/4, 1/2, 3/4, 1] 1 = [1] := by
    with_unfolding_all rfl
  have hm2 : strat_bin_members [3, 1, 4, 2] [10, 20, 30, 40] [0, 1/4, 1/2, 3/4, 1] 2 = [4] := by
    with_unfolding_all rfl
  have hm3 : strat_bin_members [3, 1, 4, 2] [10, 20, 30, 40] [0, 1/4, 1/2, 3/4, 1] 3 = [2] := by
    with_unfolding_all rfl
  have hcol : ∀ j, sortAsc (strat_column_presort [3, 1, 4, 2] [10, 20, 30, 40]
      [10, 20, 30, 40] 4 [0, 1/4, 1/2, 3/4, 1] draw j) = [1, 2, 3, 4] := by
    intro j
    have hpre : strat_column_presort [3, 1, 4, 2] [10, 20, 30, 40] [10, 20, 30, 40] 4
        [0, 1/4, 1/2, 3/4, 1] draw j = [3, 1, 4, 2] := by
      rw [strat_column_presort]
      rw [show strat_nbins [0, 1/4, 1/2, 3/4, 1] = 4 from rfl]
      rw [show List.range 4 = [0, 1, 2, 3] from rfl]
      simp only [List.map_cons, List.map_nil, ha0, ha1, ha2, ha3, hm0, hm1, hm2, hm3]
      simp only [show List.range 1 = [0] from rfl, List.map_cons, List.map_nil,
        List.length_cons, List.length_nil, Nat.zero_add, Nat.mod_one, List.getD_cons_zero,
        List.flatten_cons, List.flatten_nil, List.cons_append, List.nil_append,
        List.append_nil]
    rw [hpre]
    with_unfolding_all rfl
  rw [stratify_sample, if_neg (by norm_num), if_neg (by with_unfolding_all decide),
    if_neg (by with_unfolding_all decide), if_neg (by with_unfolding_all decide)]
  have hmap : (List.range nMC).map (fun j => sortAsc (strat_column_presort [3, 1, 4, 2]
        [10, 20, 30, 40] [10, 20, 30, 40] 4 [0, 1/4, 1/2, 3/4, 1] draw j))
      = (List.range nMC).map (fun _ => ([1, 2, 3, 4] : List ℚ)) :=
    List.map_congr_left (fun j _ => hcol j)
  rw [hmap, List.map_const', List.length_range]

/-! ## Intermittency-aware aerial sampler (`ROAMSModel.get_aerial_survey_sample`) -/

/-- One surveyed source: its coverage count and its ordered plume
observations, each an (emission, wind-normalized emission) pair — the
result of the source-table join and groupby-list aggregation. -/
structure AerialSource where
  coverage : ℕ
  plumes : List (ℚ × ℚ)

/-- Message of the pandas `ValueError` raised by
`row.sample(..., weights=1*(~row.isna()))` when the weights sum to zero
(every slot of the row is NaN). -/
def zeroWeightErrMsg : String := "Invalid weights: weights sum to zero."

/-- The coverage-slot row of one source: slot `col` holds the `col`-th
observed pair when it exists, the explicit zero entry (both fields `0`)
while `col < coverage_count` (visited, not emitting), and NaN (`none`)
beyond the coverage count. -/
def sourceSlots (maxCount : ℕ) (s : AerialSource) : List (Option (ℚ × ℚ)) :=
  (List.range maxCount).map (fun col =>
    if col < s.plumes.length then some (s.plumes.getD col (0, 0))
    else if col < s.coverage then some (0, 0)
    else none)

/-- `row.sample(n_mc_samples, replace=True, weights=1*(~row.isna()))`:
uniform draws with replacement over the non-NaN slots; pandas raises when
no slot carries weight. -/
def sampleSourceRow (nMC : ℕ) (draw : ℕ → ℕ) (slots : List (Option (ℚ × ℚ))) :
    Except String (List (ℚ × ℚ)) :=
  if (slots.filterMap id).length = 0 then .error zeroWeightErrMsg
  else .ok ((List.range nMC).map (fun j =>
    (slots.filterMap id).getD (draw j % (slots.filterMap id).length) (0, 0)))

/-- The `df.apply(...)` loop: one sampled row per source, in table order,
stopping at the first raising source. -/
def sampleRowsAux (maxCount nMC : ℕ) (draw : ℕ → ℕ → ℕ) :
    List (ℕ × AerialSource) → Except String (List (List (ℚ × ℚ)))
  | [] => .ok []
  | (i, s) :: rest =>
    match sampleSourceRow nMC (draw i) (sourceSlots maxCount s) with
    | .error e => .error e
    | .ok row =>
      match sampleRowsAux maxCount nMC draw rest with
      | .error e => .error e
      | .ok rows => .ok (row :: rows)

/-- `sources[coverage_count].max()`. -/
def maxCoverage (sources : List AerialSource) : ℕ :=
  (sources.map (fun s => s.coverage)).foldr max 0

/-- `correction_fn`, applied elementwise to the emissions matrix when not
`None`. -/
def applyCorrection (correction : Option (ℚ → ℚ)) (m : List (List ℚ)) : List (List ℚ) :=
  match correction with
  | none => m
  | some f => m.map (fun r => r.map f)

/-- The multiplicative noise draw (`noise_fn`) when error simulation is
enabled: an independent value per cell, modelled by a cell-indexed
function. -/
def applyNoise (noise : Option (ℕ → ℕ → ℚ → ℚ)) (m : List (List ℚ)) : List (List ℚ) :=
  match noise with
  | none => m
  | some g => m.enum.map (fun pr => pr.2.enum.map (fun qr => g pr.1 qr.1 qr.2))

/-- `ROAMSModel.get_aerial_survey_sample` (`roams/model.py`): build the
coverage-slot rows, sample each row `n_mc_samples` times over its
non-NaN slots, split the sampled pairs into the emissions and
wind-normalized matrices (one row per source), then apply the bias
correction, optional noise, and the negative handler to the emissions
only. -/
def get_aerial_survey_sample (sources : List AerialSource) (nMC : ℕ) (draw : ℕ → ℕ → ℕ)
    (correction : Option (ℚ → ℚ)) (noise : Option (ℕ → ℕ → ℚ → ℚ))
    (handle_negative : ℚ → ℚ) : Except String (List (List ℚ) × List (List ℚ)) :=
  match sampleRowsAux (maxCoverage sources) nMC draw sources.enum with
  | .error e => .error e
  | .ok rows =>
    .ok ((applyNoise noise (applyCorrection correction
            (rows.map (fun row => row.map Prod.fst)))).map (fun r => r.map handle_negative),
         rows.map (fun row => row.map Prod.snd))

theorem applyCorrection_length (correction : Option (ℚ → ℚ)) (m : List (List ℚ)) :
    (applyCorrection correction m).length = m.length := by
  cases correction <;> simp [applyCorrection]

theorem applyNoise_length (noise : Option (ℕ → ℕ → ℚ → ℚ)) (m : List (List ℚ)) :
    (applyNoise noise m).length = m.length := by
  cases noise <;> simp [applyNoise]

theorem le_maxCoverage (sources : List AerialSource) (s : AerialSource) (h : s ∈ sources) :
    s.coverage ≤ maxCoverage sources := by
  induction sources with
  | nil => simp at h
  | cons a t ih =>
    rw [maxCoverage, List.map_cons, List.foldr_cons]
    rcases List.mem_cons.mp h with rfl | h'
    · exact le_max_left _ _
    · have := ih h'
      rw [maxCoverage] at this
      exact le_trans this (le_max_right _ _)

/-- A source with a positive coverage count always has a valid slot
(its first one), so its sampling weights do not sum to zero. -/
theorem slots_filterMap_pos (maxCount : ℕ) (s : AerialSource)
    (hc : 0 < s.coverage) (hm : s.coverage ≤ maxCount) :
    0 < ((sourceSlots maxCount s).filterMap id).length := by
  have hmem : ∀ v : Option (ℚ × ℚ),
      v = (if 0 < s.plumes.length then some (s.plumes.getD 0 (0, 0))
        else if 0 < s.coverage then some (0, 0) else none) →
      v ∈ sourceSlots maxCount s := by
    intro v hv
    rw [sourceSlots]
    exact List.mem_map.mpr ⟨0, List.mem_range.mpr (by omega), hv.symm⟩
  by_cases hp : 0 < s.plumes.length
  · have hin := hmem _ rfl
    rw [if_pos hp] at hin
    have : s.plumes.getD 0 (0, 0) ∈ (sourceSlots maxCount s).filterMap id :=
      List.mem_filterMap.mpr ⟨_, hin, rfl⟩
    exact List.length_pos.mpr (List.ne_nil_of_mem this)
  · have hin := hmem _ rfl
    rw [if_neg hp, if_pos hc] at hin
    have : ((0 : ℚ), (0 : ℚ)) ∈ (sourceSlots maxCount s).filterMap id :=
      List.mem_filterMap.mpr ⟨_, hin, rfl⟩
    exact List.length_pos.mpr (List.ne_nil_of_mem this)

theorem sampleRowsAux_ok (maxCount nMC : ℕ) (draw : ℕ → ℕ → ℕ)
    (l : List (ℕ × AerialSource))
    (h : ∀ pr ∈ l, 0 < ((sourceSlots maxCount pr.2).filterMap id).length) :
    ∃ rows, sampleRowsAux maxCount nMC draw l = .ok rows ∧ rows.length = l.length := by
  induction l with
  | nil => exact ⟨[], rfl, rfl⟩
  | cons pr rest ih =>
    obtain ⟨i, s⟩ := pr
    obtain ⟨rows, hr, hlen⟩ := ih (fun q hq => h q (List.mem_cons_of_mem _ hq))
    have hs : 0 < ((sourceSlots maxCount s).filterMap id).length :=
      h (i, s) (List.mem_cons_self _ _)
    have hrow : sampleSourceRow nMC (draw i) (sourceSlots maxCount s)
        = .ok ((List.range nMC).map (fun j =>
          ((sourceSlots maxCount s).filterMap id).getD
            (draw i j % ((sourceSlots maxCount s).filterMap id).length) (0, 0))) := by
      rw [sampleSourceRow, if_neg (by omega)]
    refine ⟨((List.range nMC).map (fun j =>
      ((sourceSlots maxCount s).filterMap id).getD
        (draw i j % ((sourceSlots maxCount s).filterMap id).length) (0, 0))) :: rows, ?_, ?_⟩
    · rw [sampleRowsAux]
      simp only [hrow, hr]
    · simp [hlen]

/-- C8 counterexample: a source with `coverage_count = 0` (and, by the
data-model invariant, no plumes) leaves every slot of its row NaN, so the
weighted `row.sample` call raises — its presence does cause a failure,
rather than silently contributing no rows. -/
theorem C8_zero_coverage_raises :
    get_aerial_survey_sample [⟨0, []⟩, ⟨2, [(3, 4)]⟩] 2 (fun _ _ => 0) none none id
      = .error zeroWeightErrMsg := by
  with_unfolding_all rfl

/-- C8 amended: when every source has a positive coverage count the
sampler returns normally, and each source contributes exactly one row to
both returned matrices (so the matrices have one row per source — a
zero-coverage source does not contribute zero rows; it aborts the
sampler). -/
theorem C8_positive_coverage_one_row_per_source (sources : List AerialSource) (nMC : ℕ)
    (draw : ℕ → ℕ → ℕ) (correction : Option (ℚ → ℚ)) (noise : Option (ℕ → ℕ → ℚ → ℚ))
    (handle_negative : ℚ → ℚ) (hcov : ∀ s ∈ sources, 0 < s.coverage) :
    ∃ em wind,
      get_aerial_survey_sample sources nMC draw correction noise handle_negative
        = .ok (em, wind) ∧
      em.length = sources.length ∧ wind.length = sources.length := by
  obtain ⟨rows, hr, hlen⟩ := sampleRowsAux_ok (maxCoverage sources) nMC draw sources.enum
    (by
      intro pr hpr
      obtain ⟨i, a⟩ := pr
      have hmem : a ∈ sources :=
        List.getElem?_mem (List.mk_mem_enum_iff_getElem?.mp hpr)
      exact slots_filterMap_pos _ _ (hcov a hmem) (le_maxCoverage sources a hmem))
  refine ⟨(applyNoise noise (applyCorrection correction
      (rows.map (fun row => row.map Prod.fst)))).map (fun r => r.map handle_negative),
    rows.map (fun row => row.map Prod.snd), ?_, ?_, ?_⟩
  · rw [get_aerial_survey_sample]
    simp only [hr]
  · rw [List.length_map, applyNoise_length, applyCorrection_length, List.length_map, hlen,
      List.enum_length]
  · rw [List.length_map, hlen, List.enum_length]

/-- Witness for the amended C8: two positive-coverage sources give two
rows. -/
theorem C8_positive_coverage_one_row_per_source_witness :
    ∃ em wind,
      get_aerial_survey_sample [⟨1, []⟩, ⟨2, [(3, 4)]⟩] 1 (fun _ _ => 0) none none id
        = .ok (em, wind) ∧
      em.length = 2 ∧ wind.length = 2 :=
  C8_positive_coverage_one_row_per_source [⟨1, []⟩, ⟨2, [(3, 4)]⟩] 1 (fun _ _ => 0)
    none none id (by decide)
